import Mathlib

/-!
Verification of `encode.py`: a one-function repository converting a
Base58-encoded Solana private key into a comma-separated decimal string.

Strings are modelled as `List Char`, bytes as `Nat` (values < 256), and the
Python `ValueError` exception as a one-constructor error type; the fallible
function returns `Except`.  The third-party `base58.b58decode` dependency is
not part of this repository, so it is modelled from the specification's
description of standard Base58 decoding.
-/

/-- The standard Bitcoin/Solana Base58 alphabet (no `0`, `O`, `I`, `l`). -/
def base58Alphabet : List Char :=
  "123456789ABCDEFGHJKLMNPQRSTUVWXYZabcdefghijkmnopqrstuvwxyz".toList

/-- Position of a character in a list, starting from offset `i`. -/
def b58IndexAux (c : Char) : List Char → Nat → Option Nat
  | [], _ => none
  | a :: as, i => if a = c then some i else b58IndexAux c as (i + 1)

/-- The digit value of one Base58 character, `none` outside the alphabet. -/
def b58Index (c : Char) : Option Nat :=
  b58IndexAux c base58Alphabet 0

/-- Big-endian base-58 accumulator: `acc * 58 + digit` per character, failing
on any character outside the alphabet. -/
def b58decodeIntAux : Nat → List Char → Option Nat
  | acc, [] => some acc
  | acc, c :: cs =>
    match b58Index c with
    | none => none
    | some i => b58decodeIntAux (acc * 58 + i) cs

/-- Digit values of the input characters, `none` if any is not Base58. -/
def b58Values : List Char → Option (List Nat)
  | [] => some []
  | c :: cs =>
    match b58Index c, b58Values cs with
    | some v, some vs => some (v :: vs)
    | _, _ => none

/-- Number of leading alphabet-zero (`'1'`) characters. -/
def countLeadingOnes : List Char → Nat
  | [] => 0
  | c :: cs => if c = '1' then countLeadingOnes cs + 1 else 0

/-- Little-endian digits of `n` in base `b`, driven by explicit fuel so the
definition is structural (hence kernel-evaluable); with fuel ≥ n it agrees
with `Nat.digits b`. -/
def digitsLEAux (b : Nat) : Nat → Nat → List Nat
  | _, 0 => []
  | 0, _ + 1 => []
  | fuel + 1, n + 1 => ((n + 1) % b) :: digitsLEAux b fuel ((n + 1) / b)

/-- Little-endian digits of `n` in base `b` (minimal, no trailing zero). -/
def digitsLE (b n : Nat) : List Nat :=
  digitsLEAux b n n

/-- Minimal big-endian byte sequence of a natural number. -/
def natToBytesBE (n : Nat) : List Nat :=
  (digitsLE 256 n).reverse

/-- Modelled from the spec: standard Base58 decoding (the `base58` Python
library used by `encode.py` is a third-party dependency, not part of this
repository).  The input is interpreted as a base-58 big-endian numeral over
the Bitcoin alphabet and converted to its minimal big-endian byte sequence;
each leading alphabet-zero character `'1'` contributes one leading zero byte;
any character outside the alphabet makes decoding fail. -/
def b58decode (s : List Char) : Option (List Nat) :=
  match b58decodeIntAux 0 s with
  | none => none
  | some n => some (List.replicate (countLeadingOnes s) 0 ++ natToBytesBE n)

/-- Number of leading zero bytes. -/
def countLeadingZeros : List Nat → Nat
  | [] => 0
  | b :: bs => if b = 0 then countLeadingZeros bs + 1 else 0

/-- The byte sequence with its leading zero bytes removed. -/
def stripZeros (bs : List Nat) : List Nat :=
  bs.dropWhile (fun b => b == 0)

/-- Big-endian value of a byte sequence. -/
def bytesToNat (bs : List Nat) : Nat :=
  Nat.ofDigits 256 bs.reverse

/-- The Base58 character of a digit value below 58. -/
def b58Char (d : Nat) : Char :=
  base58Alphabet.getD d '1'

/-- Modelled from the spec: standard Base58 encoding, the inverse direction
used only to state round-trip properties (the repository has no encoder).
One `'1'` per leading zero byte, then the minimal base-58 big-endian digits
of the remaining value. -/
def b58encode (bs : List Nat) : List Char :=
  List.replicate (countLeadingZeros bs) '1'
    ++ (digitsLE 58 (bytesToNat bs)).reverse.map b58Char

/-- The Python `ValueError` exception: a single generic error kind carrying a
human-readable message. -/
inductive PyError where
  | valueError (msg : String)
deriving DecidableEq, Repr

/-- The message of the length-check failure, as formatted by `encode.py`
line 18. -/
def lengthErrorMsg (n : Nat) : String :=
  "Decoded private key length is invalid: " ++ toString n
    ++ " bytes. Expected 32 or 64."

/-- Decimal digit character for a value below 10. -/
def digitChar (d : Nat) : Char :=
  "0123456789".toList.getD d '0'

/-- Python `str` on a nonnegative integer: minimal decimal digits, with
`str 0 = "0"`. -/
def str (n : Nat) : List Char :=
  if n = 0 then ['0'] else (digitsLE 10 n).reverse.map digitChar

/-- Python `",".join`: interleave a comma between the pieces. -/
def joinComma : List (List Char) → List Char
  | [] => []
  | [x] => x
  | x :: xs => x ++ ',' :: joinComma xs

/-- `solana_private_key_to_decimal_list` from `encode.py`: decode the Base58
string (a failure is re-raised as the format `ValueError`), check the decoded
length is 32 or 64 (else raise the length `ValueError`), and join the byte
values with commas. -/
def solana_private_key_to_decimal_list (private_key : List Char) :
    Except PyError (List Char) :=
  match b58decode private_key with
  | none => Except.error (PyError.valueError "Invalid Base58 private key format.")
  | some private_key_bytes =>
    if ¬(private_key_bytes.length = 32 ∨ private_key_bytes.length = 64) then
      Except.error (PyError.valueError (lengthErrorMsg private_key_bytes.length))
    else
      Except.ok (joinComma (private_key_bytes.map str))

/-- Split a string at every comma (Python `s.split(",")`): always at least
one field, empty fields preserved. -/
def splitComma : List Char → List (List Char)
  | [] => [[]]
  | c :: cs =>
    if c = ',' then [] :: splitComma cs
    else
      match splitComma cs with
      | [] => [[c]]
      | f :: rest => (c :: f) :: rest

/-- Accumulating decimal parser: every character must be a digit. -/
def parseDecAux : Nat → List Char → Option Nat
  | acc, [] => some acc
  | acc, c :: cs =>
    if 48 ≤ c.toNat ∧ c.toNat ≤ 57 then
      parseDecAux (acc * 10 + (c.toNat - 48)) cs
    else none

/-- Parse a nonempty all-digit string as an unsigned decimal integer. -/
def parseDec (l : List Char) : Option Nat :=
  if l.isEmpty then none else parseDecAux 0 l

/-! ### Digit infrastructure -/

theorem digitsLEAux_eq_digits (b : Nat) (hb : 1 < b) :
    ∀ fuel n, n ≤ fuel → digitsLEAux b fuel n = Nat.digits b n := by
  intro fuel
  induction fuel with
  | zero =>
    intro n hn
    interval_cases n
    simp [digitsLEAux]
  | succ fuel ih =>
    intro n hn
    match n with
    | 0 => simp [digitsLEAux]
    | m + 1 =>
      rw [digitsLEAux, Nat.digits_def' hb (Nat.succ_pos m), ih]
      exact Nat.le_of_lt_succ (Nat.lt_of_lt_of_le
        (Nat.div_lt_self (Nat.succ_pos m) hb) hn)

theorem digitsLE_eq_digits (b n : Nat) (hb : 1 < b) :
    digitsLE b n = Nat.digits b n :=
  digitsLEAux_eq_digits b hb n n le_rfl

theorem foldl_mul_add (b : Nat) :
    ∀ (l : List Nat) (acc : Nat),
      l.foldl (fun a d => a * b + d) acc
        = acc * b ^ l.length + Nat.ofDigits b l.reverse := by
  intro l
  induction l with
  | nil => intro acc; simp [Nat.ofDigits_nil]
  | cons d ds ih =>
    intro acc
    rw [List.foldl_cons, ih, List.reverse_cons, Nat.ofDigits_append,
      Nat.ofDigits_singleton]
    simp only [List.length_cons, List.length_reverse]
    ring

theorem ofDigits_replicate_zero (b : Nat) :
    ∀ k, Nat.ofDigits b (List.replicate k 0) = 0 := by
  intro k
  induction k with
  | zero => rfl
  | succ k ih => simp [List.replicate_succ, Nat.ofDigits_cons, ih]

/-! ### Base58 character lemmas -/

theorem b58IndexAux_eq_none_iff (c : Char) :
    ∀ (l : List Char) (i : Nat), b58IndexAux c l i = none ↔ c ∉ l := by
  intro l
  induction l with
  | nil => intro i; simp [b58IndexAux]
  | cons a as ih =>
    intro i
    by_cases h : a = c
    · simp [b58IndexAux, h]
    · simp only [b58IndexAux, if_neg h, ih, List.mem_cons]
      constructor
      · intro hna hmem
        rcases hmem with hmem | hmem
        · exact h hmem.symm
        · exact hna hmem
      · intro hna hmem
        exact hna (Or.inr hmem)

theorem b58Index_eq_none_iff (c : Char) :
    b58Index c = none ↔ c ∉ base58Alphabet :=
  b58IndexAux_eq_none_iff c base58Alphabet 0

theorem b58decodeIntAux_eq_none_of_bad (c : Char) (hc : b58Index c = none) :
    ∀ (s : List Char) (acc : Nat), c ∈ s → b58decodeIntAux acc s = none := by
  intro s
  induction s with
  | nil => intro acc h; cases h
  | cons a as ih =>
    intro acc h
    rcases List.mem_cons.mp h with rfl | h
    · simp [b58decodeIntAux, hc]
    · rw [b58decodeIntAux]
      cases hae : b58Index a with
      | none => rfl
      | some i => exact ih _ h

theorem b58decodeIntAux_eq_values (s : List Char) :
    ∀ acc, b58decodeIntAux acc s
      = (b58Values s).map (fun vs => vs.foldl (fun a d => a * 58 + d) acc) := by
  induction s with
  | nil => intro acc; simp [b58decodeIntAux, b58Values]
  | cons c cs ih =>
    intro acc
    rw [b58decodeIntAux, b58Values]
    cases hc : b58Index c with
    | none => rfl
    | some v =>
      show b58decodeIntAux (acc * 58 + v) cs = _
      rw [ih]
      cases hvs : b58Values cs with
      | none => rfl
      | some vs => simp [List.foldl_cons]

/-! ### Decode structure lemmas -/

theorem b58decode_some (s : List Char) (n : Nat)
    (h : b58decodeIntAux 0 s = some n) :
    b58decode s
      = some (List.replicate (countLeadingOnes s) 0 ++ natToBytesBE n) := by
  rw [b58decode, h]

theorem b58decode_some_elim (s : List Char) (bs : List Nat)
    (h : b58decode s = some bs) :
    ∃ n, b58decodeIntAux 0 s = some n
      ∧ bs = List.replicate (countLeadingOnes s) 0 ++ natToBytesBE n := by
  rw [b58decode] at h
  cases hn : b58decodeIntAux 0 s with
  | none => rw [hn] at h; cases h
  | some n =>
    rw [hn] at h
    exact ⟨n, rfl, (Option.some_inj.mp h).symm⟩

theorem b58decode_mem_lt (s : List Char) (bs : List Nat)
    (h : b58decode s = some bs) : ∀ x ∈ bs, x < 256 := by
  obtain ⟨n, -, rfl⟩ := b58decode_some_elim s bs h
  intro x hx
  rcases List.mem_append.mp hx with hx | hx
  · rw [List.eq_of_mem_replicate hx]; norm_num
  · rw [natToBytesBE, digitsLE_eq_digits 256 n (by norm_num)] at hx
    exact Nat.digits_lt_base (by norm_num) (List.mem_reverse.mp hx)

/-! ### Split and join lemmas -/

theorem splitComma_no_comma :
    ∀ (l : List Char), ',' ∉ l → splitComma l = [l] := by
  intro l
  induction l with
  | nil => intro h; rfl
  | cons c cs ih =>
    intro h
    have hc : ¬c = ',' := fun hcc => h (hcc ▸ List.mem_cons_self c cs)
    rw [splitComma, if_neg hc, ih (fun hm => h (List.mem_cons_of_mem c hm))]

theorem splitComma_append (x m : List Char) (hx : ',' ∉ x) :
    splitComma (x ++ ',' :: m) = x :: splitComma m := by
  induction x with
  | nil => simp [splitComma]
  | cons c cs ih =>
    have hc : ¬c = ',' := fun hcc => hx (hcc ▸ List.mem_cons_self c cs)
    have hcs : ',' ∉ cs := fun hm => hx (List.mem_cons_of_mem c hm)
    rw [List.cons_append, splitComma, if_neg hc, ih hcs]

theorem splitComma_joinComma :
    ∀ (ls : List (List Char)), ls ≠ [] → (∀ x ∈ ls, ',' ∉ x) →
      splitComma (joinComma ls) = ls := by
  intro ls
  induction ls with
  | nil => intro h; exact absurd rfl h
  | cons x xs ih =>
    intro _ hnc
    cases xs with
    | nil =>
      exact splitComma_no_comma x (hnc x (List.mem_cons_self x []))
    | cons y ys =>
      show splitComma (x ++ ',' :: joinComma (y :: ys)) = x :: y :: ys
      rw [splitComma_append x _ (hnc x (List.mem_cons_self x _)),
        ih (by simp) (fun z hz => hnc z (List.mem_cons_of_mem x hz))]

/-! ### Decimal formatting and parsing lemmas -/

theorem digitChar_facts :
    ∀ d < 10, 48 ≤ (digitChar d).toNat ∧ (digitChar d).toNat ≤ 57
      ∧ (digitChar d).toNat - 48 = d ∧ digitChar d ≠ ',' := by
  decide

theorem str_no_comma (n : Nat) : ',' ∉ str n := by
  rw [str]
  by_cases hn : n = 0
  · rw [if_pos hn]
    decide
  · rw [if_neg hn]
    intro hm
    obtain ⟨d, hd, hdc⟩ := List.mem_map.mp hm
    have hd10 : d < 10 := by
      rw [digitsLE_eq_digits 10 n (by norm_num)] at hd
      exact Nat.digits_lt_base (by norm_num) (List.mem_reverse.mp hd)
    exact (digitChar_facts d hd10).2.2.2 hdc

theorem parseDecAux_digits :
    ∀ (ds : List Nat), (∀ d ∈ ds, d < 10) → ∀ acc,
      parseDecAux acc (ds.map digitChar)
        = some (ds.foldl (fun a d => a * 10 + d) acc) := by
  intro ds
  induction ds with
  | nil => intro _ acc; rfl
  | cons d ds ih =>
    intro hlt acc
    have hd := digitChar_facts d (hlt d (List.mem_cons_self d ds))
    rw [List.map_cons, parseDecAux, if_pos ⟨hd.1, hd.2.1⟩, hd.2.2.1,
      ih (fun x hx => hlt x (List.mem_cons_of_mem d hx)), List.foldl_cons]

theorem parseDec_str (n : Nat) : parseDec (str n) = some n := by
  by_cases hn : n = 0
  · rw [hn]; decide
  · have hne : Nat.digits 10 n ≠ [] := Nat.digits_ne_nil_iff_ne_zero.mpr hn
    have hrw : str n = ((Nat.digits 10 n).reverse).map digitChar := by
      rw [str, if_neg hn, digitsLE_eq_digits 10 n (by norm_num)]
    have hlt : ∀ d ∈ (Nat.digits 10 n).reverse, d < 10 := fun d hd =>
      Nat.digits_lt_base (by norm_num) (List.mem_reverse.mp hd)
    have hnonempty : ¬(str n).isEmpty = true := by
      rw [hrw, List.isEmpty_iff, List.map_eq_nil_iff, List.reverse_eq_nil_iff]
      exact hne
    rw [parseDec, if_neg hnonempty, hrw, parseDecAux_digits _ hlt 0,
      foldl_mul_add 10, List.reverse_reverse, Nat.ofDigits_digits]
    simp

/-! ### Unfolding lemmas for the conversion function -/

theorem convert_eq_of_decode_some (s : List Char) (bs : List Nat)
    (hdec : b58decode s = some bs) :
    solana_private_key_to_decimal_list s
      = if ¬(bs.length = 32 ∨ bs.length = 64) then
          Except.error (PyError.valueError (lengthErrorMsg bs.length))
        else Except.ok (joinComma (bs.map str)) := by
  rw [solana_private_key_to_decimal_list, hdec]

theorem convert_eq_of_decode_none (s : List Char)
    (hdec : b58decode s = none) :
    solana_private_key_to_decimal_list s
      = Except.error (PyError.valueError "Invalid Base58 private key format.") := by
  rw [solana_private_key_to_decimal_list, hdec]

/-! ### Claim theorems -/

/-- C1: for every Base58 input whose decoded byte sequence `bs` has length 32
or 64, the conversion succeeds, and the output split on commas has exactly
`bs.length` fields, each parsing as an unsigned integer in [0, 255], and the
parsed fields in order reproduce `bs` exactly. -/
theorem convert_valid_key_roundtrip (s : List Char) (bs : List Nat)
    (hdec : b58decode s = some bs)
    (hlen : bs.length = 32 ∨ bs.length = 64) :
    ∃ out, solana_private_key_to_decimal_list s = Except.ok out
      ∧ (splitComma out).length = bs.length
      ∧ (splitComma out).map parseDec = bs.map some
      ∧ ∀ x ∈ bs, x ≤ 255 := by
  have hne : bs ≠ [] := by
    intro hnil
    rcases hlen with hlen | hlen <;> rw [hnil] at hlen <;> cases hlen
  have hsplit : splitComma (joinComma (bs.map str)) = bs.map str := by
    apply splitComma_joinComma
    · rw [Ne, List.map_eq_nil_iff]; exact hne
    · intro x hx
      obtain ⟨n, -, rfl⟩ := List.mem_map.mp hx
      exact str_no_comma n
  refine ⟨joinComma (bs.map str), ?_, ?_, ?_, ?_⟩
  · rw [convert_eq_of_decode_some s bs hdec, if_neg (not_not_intro hlen)]
  · rw [hsplit, List.length_map]
  · rw [hsplit, List.map_map]
    simp only [Function.comp_def, parseDec_str]
  · intro x hx
    exact Nat.lt_succ_iff.mp (b58decode_mem_lt s bs hdec x hx)

theorem convert_valid_key_roundtrip_witness :
    b58decode (List.replicate 32 '1') = some (List.replicate 32 0)
    ∧ (List.replicate 32 (0 : Nat)).length = 32
    ∧ ∃ out,
        solana_private_key_to_decimal_list (List.replicate 32 '1')
          = Except.ok out
        ∧ (splitComma out).length = (List.replicate 32 (0 : Nat)).length
        ∧ (splitComma out).map parseDec
            = (List.replicate 32 (0 : Nat)).map some
        ∧ ∀ x ∈ List.replicate 32 (0 : Nat), x ≤ 255 :=
  ⟨by decide, by decide,
    convert_valid_key_roundtrip _ _ (by decide) (Or.inl (by decide))⟩

/-- C2: whenever decoding succeeds with a byte length other than 32 or 64,
the conversion fails with the generic `ValueError` whose message reports the
observed decoded length, and no formatted output is produced. -/
theorem convert_invalid_length_error (s : List Char) (bs : List Nat)
    (hdec : b58decode s = some bs)
    (h32 : bs.length ≠ 32) (h64 : bs.length ≠ 64) :
    solana_private_key_to_decimal_list s
      = Except.error (PyError.valueError (lengthErrorMsg bs.length))
    ∧ ∀ out, solana_private_key_to_decimal_list s ≠ Except.ok out := by
  have h : solana_private_key_to_decimal_list s
      = Except.error (PyError.valueError (lengthErrorMsg bs.length)) := by
    rw [convert_eq_of_decode_some s bs hdec, if_pos (not_or_intro h32 h64)]
  refine ⟨h, fun out hout => ?_⟩
  rw [h] at hout
  cases hout

theorem convert_invalid_length_error_witness :
    b58decode ['1'] = some [0]
    ∧ ([(0 : Nat)].length ≠ 32)
    ∧ ([(0 : Nat)].length ≠ 64)
    ∧ (solana_private_key_to_decimal_list ['1']
        = Except.error (PyError.valueError (lengthErrorMsg 1))
      ∧ ∀ out, solana_private_key_to_decimal_list ['1'] ≠ Except.ok out) :=
  ⟨by decide, by decide, by decide,
    convert_invalid_length_error ['1'] [0] (by decide) (by decide) (by decide)⟩

/-- C3 counterexample: at input `"0"` (whose character `'0'` is outside the
Base58 alphabet) the conversion does fail, but the error message is the
source's literal `"Invalid Base58 private key format."`, which is not the
claimed string `"invalid Base58 private key format"`. -/
theorem convert_format_error_message_counterexample :
    '0' ∈ ['0']
    ∧ '0' ∉ base58Alphabet
    ∧ solana_private_key_to_decimal_list ['0']
        = Except.error (PyError.valueError "Invalid Base58 private key format.")
    ∧ "Invalid Base58 private key format." ≠ "invalid Base58 private key format" := by
  refine ⟨by decide, by decide, rfl, by decide⟩

/-- C3 (amended): for every input containing at least one character outside
the Base58 alphabet, the conversion fails with the generic `ValueError`
carrying the message `"Invalid Base58 private key format."`, and no partial
output is produced. -/
theorem convert_format_error (s : List Char) (c : Char)
    (hc : c ∈ s) (hna : c ∉ base58Alphabet) :
    solana_private_key_to_decimal_list s
      = Except.error (PyError.valueError "Invalid Base58 private key format.")
    ∧ ∀ out, solana_private_key_to_decimal_list s ≠ Except.ok out := by
  have hnone : b58decodeIntAux 0 s = none :=
    b58decodeIntAux_eq_none_of_bad c ((b58Index_eq_none_iff c).mpr hna) s 0 hc
  have hdec : b58decode s = none := by rw [b58decode, hnone]
  have h := convert_eq_of_decode_none s hdec
  refine ⟨h, fun out hout => ?_⟩
  rw [h] at hout
  cases hout

theorem convert_format_error_witness :
    '0' ∈ ['0', '1']
    ∧ '0' ∉ base58Alphabet
    ∧ (solana_private_key_to_decimal_list ['0', '1']
        = Except.error (PyError.valueError "Invalid Base58 private key format.")
      ∧ ∀ out, solana_private_key_to_decimal_list ['0', '1'] ≠ Except.ok out) :=
  ⟨by decide, by decide, convert_format_error ['0', '1'] '0' (by decide) (by decide)⟩

/-- C6: the empty input decodes to the empty byte sequence, and the
conversion on it fails with the length `ValueError` reporting length 0. -/
theorem convert_empty_input :
    b58decode [] = some []
    ∧ solana_private_key_to_decimal_list []
        = Except.error (PyError.valueError
            "Decoded private key length is invalid: 0 bytes. Expected 32 or 64.") := by
  refine ⟨by decide, rfl⟩

/-- C7: the conversion is a pure deterministic function of its input — equal
inputs give equal results, and (being a total Lean function) it has no side
effects or shared mutable state. -/
theorem convert_deterministic (s t : List Char) (h : s = t) :
    solana_private_key_to_decimal_list s = solana_private_key_to_decimal_list t :=
  congrArg solana_private_key_to_decimal_list h

theorem convert_deterministic_witness :
    ['1'] = ['1']
    ∧ solana_private_key_to_decimal_list ['1']
        = solana_private_key_to_decimal_list ['1'] :=
  ⟨rfl, convert_deterministic ['1'] ['1'] rfl⟩

/-- C8: every error of the conversion is the single generic `ValueError`
kind; both failure modes (bad format at input `"0"`, bad length at input
`"1"`) produce it, and they are distinguishable only by their message
strings, which differ. -/
theorem convert_single_error_type :
    (∀ e : PyError, ∃ m, e = PyError.valueError m)
    ∧ solana_private_key_to_decimal_list ['0']
        = Except.error (PyError.valueError "Invalid Base58 private key format.")
    ∧ solana_private_key_to_decimal_list ['1']
        = Except.error (PyError.valueError (lengthErrorMsg 1))
    ∧ "Invalid Base58 private key format." ≠ lengthErrorMsg 1 := by
  refine ⟨fun e => ?_, rfl, rfl, by decide⟩
  cases e with
  | valueError m => exact ⟨m, rfl⟩

/-- C10: the conversion is total with exactly two kinds of outcome: a
successful formatted string, or the generic `ValueError` carrying either the
format-error message or the length-error message for some observed length. -/
theorem convert_total_two_outcomes (s : List Char) :
    (∃ out, solana_private_key_to_decimal_list s = Except.ok out)
    ∨ solana_private_key_to_decimal_list s
        = Except.error (PyError.valueError "Invalid Base58 private key format.")
    ∨ ∃ n, solana_private_key_to_decimal_list s
        = Except.error (PyError.valueError (lengthErrorMsg n)) := by
  cases hdec : b58decode s with
  | none => exact Or.inr (Or.inl (convert_eq_of_decode_none s hdec))
  | some bs =>
    have h := convert_eq_of_decode_some s bs hdec
    by_cases hlen : bs.length = 32 ∨ bs.length = 64
    · rw [h, if_neg (not_not_intro hlen)]
      exact Or.inl ⟨_, rfl⟩
    · rw [h, if_pos hlen]
      exact Or.inr (Or.inr ⟨bs.length, rfl⟩)

/-- C5: a successful decode interprets the input as a base-58 big-endian
numeral (digit values read off the alphabet) and returns its minimal
big-endian byte sequence, with each leading `'1'` character contributing one
leading zero byte: the first `countLeadingOnes s` bytes are zero, the byte
sequence after them starts with a nonzero byte (minimality), and the base-256
big-endian value of the output equals the base-58 big-endian value of the
input digits. -/
theorem b58decode_numeral_spec (s : List Char) (bs : List Nat)
    (h : b58decode s = some bs) :
    bs.take (countLeadingOnes s) = List.replicate (countLeadingOnes s) 0
    ∧ (bs.drop (countLeadingOnes s)).head? ≠ some 0
    ∧ ∃ vs, b58Values s = some vs
        ∧ Nat.ofDigits 256 bs.reverse = Nat.ofDigits 58 vs.reverse := by
  obtain ⟨n, hn, rfl⟩ := b58decode_some_elim s bs h
  have hdig : digitsLE 256 n = Nat.digits 256 n :=
    digitsLE_eq_digits 256 n (by norm_num)
  refine ⟨?_, ?_, ?_⟩
  · exact List.take_left' (List.length_replicate _ _)
  · rw [List.drop_left' (List.length_replicate _ _), natToBytesBE, hdig,
      List.head?_reverse]
    by_cases hn0 : n = 0
    · rw [hn0, Nat.digits_zero]
      simp
    · rw [List.getLast?_eq_getLast _ (Nat.digits_ne_nil_iff_ne_zero.mpr hn0)]
      intro hcon
      exact Nat.getLast_digit_ne_zero 256 hn0 (Option.some_inj.mp hcon)
  · rw [b58decodeIntAux_eq_values] at hn
    cases hvs : b58Values s with
    | none => rw [hvs] at hn; cases hn
    | some vs =>
      rw [hvs] at hn
      refine ⟨vs, rfl, ?_⟩
      have hfold : vs.foldl (fun a d => a * 58 + d) 0 = n :=
        Option.some_inj.mp hn
      rw [List.reverse_append, List.reverse_replicate, natToBytesBE, hdig,
        List.reverse_reverse, Nat.ofDigits_append, Nat.ofDigits_digits,
        ofDigits_replicate_zero, ← hfold, foldl_mul_add]
      ring

theorem b58decode_numeral_spec_witness :
    b58decode ['1', '2'] = some [0, 1]
    ∧ (([0, 1] : List Nat).take (countLeadingOnes ['1', '2'])
        = List.replicate (countLeadingOnes ['1', '2']) 0
      ∧ (([0, 1] : List Nat).drop (countLeadingOnes ['1', '2'])).head? ≠ some 0
      ∧ ∃ vs, b58Values ['1', '2'] = some vs
          ∧ Nat.ofDigits 256 ([0, 1] : List Nat).reverse
              = Nat.ofDigits 58 vs.reverse) :=
  ⟨by decide, b58decode_numeral_spec ['1', '2'] [0, 1] (by decide)⟩

/-! ### Round-trip infrastructure -/

theorem replicate_append_stripZeros :
    ∀ bs : List Nat,
      List.replicate (countLeadingZeros bs) 0 ++ stripZeros bs = bs := by
  intro bs
  induction bs with
  | nil => rfl
  | cons b bs ih =>
    by_cases hb : b = 0
    · subst hb
      rw [countLeadingZeros, if_pos rfl, stripZeros, List.dropWhile_cons]
      simp only [beq_self_eq_true, if_true, List.replicate_succ, List.cons_append]
      rw [show List.dropWhile (fun b => b == 0) bs = stripZeros bs from rfl, ih]
    · rw [countLeadingZeros, if_neg hb, stripZeros, List.dropWhile_cons]
      simp [hb]

theorem stripZeros_head? (bs : List Nat) : (stripZeros bs).head? ≠ some 0 := by
  induction bs with
  | nil => simp [stripZeros]
  | cons b bs ih =>
    by_cases hb : b = 0
    · subst hb
      rw [stripZeros, List.dropWhile_cons]
      simpa using ih
    · rw [stripZeros, List.dropWhile_cons]
      simp only [beq_iff_eq, if_neg hb, List.head?_cons]
      intro hcon
      exact hb (Option.some_inj.mp hcon)

theorem stripZeros_mem (bs : List Nat) (x : Nat) (hx : x ∈ stripZeros bs) :
    x ∈ bs :=
  (List.dropWhile_sublist _).subset hx

theorem b58Index_b58Char : ∀ d < 58, b58Index (b58Char d) = some d := by
  decide

theorem b58Char_ne_one : ∀ d < 58, 0 < d → b58Char d ≠ '1' := by
  decide

theorem countLeadingOnes_replicate_append (l : List Char) :
    ∀ k, countLeadingOnes (List.replicate k '1' ++ l)
      = k + countLeadingOnes l := by
  intro k
  induction k with
  | zero => simp
  | succ k ih =>
    rw [List.replicate_succ, List.cons_append, countLeadingOnes, if_pos rfl,
      ih]
    omega

theorem b58decodeIntAux_one (l : List Char) (acc : Nat) :
    b58decodeIntAux acc ('1' :: l) = b58decodeIntAux (acc * 58) l := by
  have h1 : b58Index '1' = some 0 := by decide
  rw [b58decodeIntAux, h1]
  show b58decodeIntAux (acc * 58 + 0) l = b58decodeIntAux (acc * 58) l
  rw [Nat.add_zero]

theorem b58decodeIntAux_replicate_ones (l : List Char) :
    ∀ k, b58decodeIntAux 0 (List.replicate k '1' ++ l)
      = b58decodeIntAux 0 l := by
  intro k
  induction k with
  | zero => rfl
  | succ k ih =>
    rw [List.replicate_succ, List.cons_append, b58decodeIntAux_one,
      Nat.zero_mul, ih]

theorem b58decodeIntAux_map_b58Char :
    ∀ (ds : List Nat), (∀ d ∈ ds, d < 58) → ∀ acc,
      b58decodeIntAux acc (ds.map b58Char)
        = some (ds.foldl (fun a d => a * 58 + d) acc) := by
  intro ds
  induction ds with
  | nil => intro _ acc; rfl
  | cons d ds ih =>
    intro hlt acc
    rw [List.map_cons, b58decodeIntAux,
      b58Index_b58Char d (hlt d (List.mem_cons_self d ds))]
    show b58decodeIntAux (acc * 58 + d) (ds.map b58Char) = _
    rw [ih (fun x hx => hlt x (List.mem_cons_of_mem d hx)), List.foldl_cons]

/-- C4: for every byte sequence of length 32 or 64 (bytes in [0, 255]),
decoding its standard Base58 encoding yields the sequence back. -/
theorem b58_roundtrip (bs : List Nat) (hb : ∀ x ∈ bs, x < 256)
    (hlen : bs.length = 32 ∨ bs.length = 64) :
    b58decode (b58encode bs) = some bs := by
  clear hlen
  have hsplit := replicate_append_stripZeros bs
  have hval : bytesToNat bs = Nat.ofDigits 256 (stripZeros bs).reverse := by
    conv_lhs => rw [bytesToNat, ← hsplit]
    rw [List.reverse_append, List.reverse_replicate, Nat.ofDigits_append,
      ofDigits_replicate_zero]
    ring
  have hdigits256 : Nat.digits 256 (bytesToNat bs) = (stripZeros bs).reverse := by
    rw [hval]
    apply Nat.digits_ofDigits 256 (by norm_num)
    · intro x hx
      exact hb x (stripZeros_mem bs x (List.mem_reverse.mp hx))
    · intro hne
      have hlast : (stripZeros bs).reverse.getLast? ≠ some 0 := by
        rw [List.getLast?_reverse]
        exact stripZeros_head? bs
      rw [List.getLast?_eq_getLast _ hne] at hlast
      intro hcon
      exact hlast (congrArg some hcon)
  have hbytes : natToBytesBE (bytesToNat bs) = stripZeros bs := by
    rw [natToBytesBE, digitsLE_eq_digits _ _ (by norm_num), hdigits256,
      List.reverse_reverse]
  have hclo : countLeadingOnes
      ((Nat.digits 58 (bytesToNat bs)).reverse.map b58Char) = 0 := by
    by_cases hn0 : bytesToNat bs = 0
    · rw [hn0, Nat.digits_zero]
      rfl
    · have hne : Nat.digits 58 (bytesToNat bs) ≠ [] :=
        Nat.digits_ne_nil_iff_ne_zero.mpr hn0
      have hg : (Nat.digits 58 (bytesToNat bs)).getLast
          (Nat.digits_ne_nil_iff_ne_zero.mpr hn0) ≠ 0 :=
        Nat.getLast_digit_ne_zero 58 hn0
      have hdlt : (Nat.digits 58 (bytesToNat bs)).getLast
          (Nat.digits_ne_nil_iff_ne_zero.mpr hn0) < 58 :=
        Nat.digits_lt_base (by norm_num) (List.getLast_mem _)
      have hhead : ((Nat.digits 58 (bytesToNat bs)).reverse.map b58Char).head?
          = some (b58Char ((Nat.digits 58 (bytesToNat bs)).getLast
              (Nat.digits_ne_nil_iff_ne_zero.mpr hn0))) := by
        rw [List.head?_map, List.head?_reverse,
          List.getLast?_eq_getLast _ hne]
        rfl
      cases hcons : (Nat.digits 58 (bytesToNat bs)).reverse.map b58Char with
      | nil => rw [hcons] at hhead; cases hhead
      | cons c rest =>
        rw [hcons] at hhead
        rw [countLeadingOnes, if_neg]
        rw [Option.some_inj.mp hhead]
        exact b58Char_ne_one _ hdlt (Nat.pos_of_ne_zero hg)
  have henc : b58encode bs
      = List.replicate (countLeadingZeros bs) '1'
        ++ (Nat.digits 58 (bytesToNat bs)).reverse.map b58Char := by
    rw [b58encode, digitsLE_eq_digits _ _ (by norm_num)]
  have hcount : countLeadingOnes (b58encode bs) = countLeadingZeros bs := by
    rw [henc, countLeadingOnes_replicate_append, hclo]
    omega
  have hint : b58decodeIntAux 0 (b58encode bs) = some (bytesToNat bs) := by
    rw [henc, b58decodeIntAux_replicate_ones,
      b58decodeIntAux_map_b58Char _
        (fun d hd => Nat.digits_lt_base (by norm_num) (List.mem_reverse.mp hd)) 0,
      foldl_mul_add, List.reverse_reverse, Nat.ofDigits_digits]
    simp
  rw [b58decode_some _ _ hint, hcount, hbytes, hsplit]

theorem b58_roundtrip_witness :
    (∀ x ∈ List.replicate 32 (0 : Nat), x < 256)
    ∧ (List.replicate 32 (0 : Nat)).length = 32
    ∧ b58decode (b58encode (List.replicate 32 0))
        = some (List.replicate 32 0) :=
  ⟨by decide, by decide,
    b58_roundtrip (List.replicate 32 0) (by decide) (Or.inl (by decide))⟩

/-- C9: the known 32-byte sequence 0, 1, 2, ..., 31, encoded to Base58 and
passed to the conversion, yields exactly the comma-separated string of the
values 0 through 31 in order. -/
theorem convert_encoded_range32 :
    List.range 32
      = [0, 1, 2, 3, 4, 5, 6, 7, 8, 9, 10, 11, 12, 13, 14, 15, 16, 17, 18,
         19, 20, 21, 22, 23, 24, 25, 26, 27, 28, 29, 30, 31]
    ∧ solana_private_key_to_decimal_list (b58encode (List.range 32))
        = Except.ok ("0,1,2,3,4,5,6,7,8,9,10,11,12,13,14,15,16,17,18,19,20,21,22,23,24,25,26,27,28,29,30,31".toList) :=
  ⟨by decide, rfl⟩
